import Mathlib

set_option maxRecDepth 2000

namespace WalletTracker

attribute [local semireducible] Rat.mul Rat.inv Rat.add Rat.sub

/-- Fuel-driven binary logarithm on naturals: `log2fuel f n` computes
the floor of `log₂ n` for `n ≥ 1` provided `f ≥ n`, and `0` on `0`. -/
def log2fuel : ℕ → ℕ → ℕ
  | 0, _ => 0
  | f + 1, n => if 2 ≤ n then log2fuel f (n / 2) + 1 else 0

/-- Floor of the binary logarithm of a natural number (`0` on `0` and `1`). -/
def natlog2 (n : ℕ) : ℕ := log2fuel n n

/-- Multiply a rational by an integer power of two. -/
def mul2z (q : ℚ) (e : ℤ) : ℚ := if 0 ≤ e then q * 2 ^ e.toNat else q / 2 ^ (-e).toNat

/-- Floor of the binary logarithm of a positive rational. -/
def floorLog2 (q : ℚ) : ℤ :=
  let e : ℤ := (natlog2 q.num.toNat : ℤ) - (natlog2 q.den : ℤ)
  if q < mul2z 1 e then e - 1 else e

/-- Truncating division num/den; equals the floor for nonnegative rationals. -/
def qtrunc (q : ℚ) : ℤ := q.num / (q.den : ℤ)

/-- Round a rational to the nearest IEEE-754 binary64 value (round half to
even, 53 significant bits), returned as the exact rational that value denotes.
Exponent overflow and subnormal underflow are not modelled; the magnitudes
appearing in this development stay far inside the normal range. This is the
rounding Python applies after every float operation, and after `int / int`
true division. -/
def rnd64 (q : ℚ) : ℚ :=
  if q = 0 then 0
  else
    let s : ℚ := if q < 0 then -1 else 1
    let e := floorLog2 |q|
    let m := mul2z |q| (52 - e)
    let fl := qtrunc m
    let fr : ℚ := m - (fl : ℚ)
    let mr : ℤ :=
      if fr < 1 / 2 then fl
      else if 1 / 2 < fr then fl + 1
      else if fl % 2 = 0 then fl else fl + 1
    s * mul2z (mr : ℚ) (e - 52)

/-- Binary64 addition: exact rational sum, then binary64 rounding. -/
def fadd64 (x y : ℚ) : ℚ := rnd64 (x + y)

/-- Binary64 subtraction: exact rational difference, then binary64 rounding. -/
def fsub64 (x y : ℚ) : ℚ := rnd64 (x - y)

/-- Binary64 division: exact rational quotient, then binary64 rounding. -/
def fdiv64 (x y : ℚ) : ℚ := rnd64 (x / y)

/-- Token data as produced by the token resolver (`models.TokenInfo`).
Python float fields are modelled as the exact rationals the floats denote. -/
structure TokenInfo where
  mintAddress : String
  symbol : String
  name : String
  priceUsd : ℚ := 0
  marketCap : ℚ := 0
  fdv : ℚ := 0
  liquidityUsd : ℚ := 0
  volume24h : ℚ := 0
  supply : ℚ := 0
  decimals : ℕ := 9
  pairAddress : Option String := none
  dexId : Option String := none
  deriving DecidableEq, Repr

/-- User-provided holding to search for (`models.HoldingQuery`). -/
structure HoldingQuery where
  ticker : String
  tokenAmount : ℚ
  mintAddress : Option String := none
  decimals : ℕ := 9
  deriving DecidableEq, Repr

/-- A wallet matching a holding query (`models.WalletMatch`); `holdings` is
the insertion-ordered mint → amount mapping. -/
structure WalletMatch where
  address : String
  holdings : List (String × ℚ) := []
  deriving DecidableEq, Repr

/-- Result of one holder search (`models.SearchResult`). Wall-clock elapsed
time is not modelled; `searchTimeMs` is fixed to `0`. -/
structure SearchResult where
  query : HoldingQuery
  tokenInfo : Option TokenInfo
  candidates : List WalletMatch
  totalHoldersScanned : ℕ := 0
  searchTimeMs : ℕ := 0
  deriving DecidableEq, Repr

/-- Result of two-holding verification (`models.VerificationResult`). -/
structure VerificationResult where
  primaryQuery : HoldingQuery
  verificationQuery : HoldingQuery
  confirmedWallets : List String
  primaryCandidates : List WalletMatch
  verificationCandidates : List WalletMatch
  deriving DecidableEq, Repr

/-- The `verified` property: true iff exactly one confirmed wallet. -/
def VerificationResult.verified (v : VerificationResult) : Bool :=
  v.confirmedWallets.length == 1

/-- Matching tolerances (`config.Tolerances`); default 0.1%. -/
structure Tolerances where
  tokenAmount : ℚ := 1 / 1000
  deriving DecidableEq, Repr

/-- Application configuration (`config.Config`). -/
structure Config where
  heliusApiKey : String
  tolerances : Tolerances
  maxHolderPages : ℕ := 50
  deriving DecidableEq, Repr

/-- One raw token-account record as consumed by the matcher: the `owner`
field (defaulted to `""` when absent upstream) and the raw integer `amount`. -/
structure RawAccount where
  owner : String
  amount : ℤ
  deriving DecidableEq, Repr

/-- The external services seen by the matcher, as pure oracles: the token
resolver outcomes, the decimals returned by the supply lookup, and the pages
served by `HeliusClient.get_token_accounts(mint, page, limit=1000)`. -/
structure World where
  resolveTicker : String → Option TokenInfo
  getByMint : String → Option TokenInfo
  decimalsOf : String → Option ℕ
  pages : String → ℕ → List RawAccount

/-- Pagination loop of `HeliusClient.get_all_holders`: `fuel` is the number
of page requests still allowed, `page` the next page number. Returns the
accumulated records together with the list of page numbers requested.
Mirrors: request the page; stop on an empty page (appending nothing); append
and stop when fewer than 1000 records come back; otherwise append and
continue with the next page. -/
def getAllHoldersGo (pageFn : ℕ → List RawAccount) : ℕ → ℕ → List RawAccount × List ℕ
  | 0, _ => ([], [])
  | fuel + 1, page =>
    let accounts := pageFn page
    if accounts.length = 0 then ([], [page])
    else if accounts.length < 1000 then (accounts, [page])
    else
      let r := getAllHoldersGo pageFn fuel (page + 1)
      (accounts ++ r.1, page :: r.2)

/-- Traced `get_all_holders`: pagination starts at page 1 and at most
`maxPages` pages are requested. -/
def getAllHoldersT (pageFn : ℕ → List RawAccount) (maxPages : ℕ) :
    List RawAccount × List ℕ :=
  getAllHoldersGo pageFn maxPages 1

/-- Model of `HeliusClient.get_all_holders(mint, max_pages)`: the accumulated records. -/
def get_all_holders (pageFn : ℕ → List RawAccount) (maxPages : ℕ) : List RawAccount :=
  (getAllHoldersT pageFn maxPages).1

/-- Holder retrieval as performed by `WalletMatcher.find_candidates`
(step 3): `self.helius.get_all_holders(token.mint_address)` — the call passes
no `max_pages` argument, so the parameter default `50` applies and the
configuration's `max_holder_pages` is not consulted. -/
def fetchHolders (w : World) (mint : String) : List RawAccount :=
  get_all_holders (w.pages mint) 50

/-- Page numbers requested by the holder retrieval of `find_candidates`. -/
def fetchHoldersPages (w : World) (mint : String) : List ℕ :=
  (getAllHoldersT (w.pages mint) 50).2

/-- One step of the owner-aggregation loop (`find_candidates` step 4): the
human-readable amount is the binary64 quotient of the raw amount by
`10 ** decimals`; records with an empty owner are skipped; otherwise the
owner's running total is bumped with binary64 addition (`defaultdict(float)`
starts each owner at `0.0`). The state is the insertion-ordered key list
plus the totals map. -/
def aggStep (d : ℕ) (acc : List String × (String → ℚ)) (a : RawAccount) :
    List String × (String → ℚ) :=
  let ui := fdiv64 (a.amount : ℚ) ((10 : ℚ) ^ d)
  if a.owner = "" then acc
  else
    (if a.owner ∈ acc.1 then acc.1 else acc.1 ++ [a.owner],
     fun o => if o = a.owner then fadd64 (acc.2 o) ui else acc.2 o)

/-- Owner aggregation over all fetched records. -/
def aggregate (accounts : List RawAccount) (d : ℕ) : List String × (String → ℚ) :=
  accounts.foldl (aggStep d) ([], fun _ => 0)

/-- The tolerance condition with the value of the division
`abs(held - target) / target` abstracted out: `target > 0 and divVal <= tolerance`.
Because the conjunction short-circuits, the condition's value is independent
of `divVal` whenever `target ≤ 0`. -/
def condWithDiv (t tol divVal : ℚ) : Bool :=
  decide (0 < t) && decide (divVal ≤ tol)

/-- The matching condition of `find_candidates` step 5:
`target > 0 and abs(held - target) / target <= tolerance`, with the
subtraction and division performed in binary64 as in the source. -/
def matchCond (t tol held : ℚ) : Bool :=
  condWithDiv t tol (fdiv64 |fsub64 held t| t)

/-- Resolution step of `find_candidates`: a truthy (non-`None`, non-empty)
`mint_address` is looked up directly, otherwise the ticker is resolved. -/
def resolveToken (w : World) (q : HoldingQuery) : Option TokenInfo :=
  if q.mintAddress.getD "" ≠ "" then w.getByMint (q.mintAddress.getD "")
  else w.resolveTicker q.ticker

/-- Aggregation state produced by `find_candidates` steps 3–4 for a resolved
mint: holders fetched with the hardcoded 50-page bound, aggregated at the
decimals from the supply lookup (default 9). -/
def holderAgg (w : World) (mint : String) : List String × (String → ℚ) :=
  aggregate (fetchHolders w mint) ((w.decimalsOf mint).getD 9)

/-- Model of `WalletMatcher.find_candidates`. Steps: resolve (returning the defined
"not found" `SearchResult` on failure), fetch decimals, fetch and aggregate
holders, filter owners by the tolerance condition, and package the result.
The query and token records carry the post-resolution mutations. -/
def find_candidates (w : World) (cfg : Config) (q : HoldingQuery) : SearchResult :=
  match resolveToken w q with
  | none => { query := q, tokenInfo := none, candidates := [] }
  | some token =>
    let d := (w.decimalsOf token.mintAddress).getD 9
    let q' : HoldingQuery := { q with mintAddress := some token.mintAddress, decimals := d }
    let token' : TokenInfo := { token with decimals := d }
    let agg := holderAgg w token.mintAddress
    let tol := cfg.tolerances.tokenAmount
    let cands :=
      (agg.1.filter (fun o => matchCond q'.tokenAmount tol (agg.2 o))).map
        (fun o => { address := o, holdings := [(token.mintAddress, agg.2 o)] })
    { query := q', tokenInfo := some token', candidates := cands,
      totalHoldersScanned := agg.1.length }

/-- Model of `WalletMatcher.verify_with_second_holding`: run both searches, intersect
the owner-address sets, and sort the intersection lexicographically. -/
def verify_with_second_holding (w : World) (cfg : Config)
    (primary verification : HoldingQuery) : VerificationResult :=
  let r1 := find_candidates w cfg primary
  let r2 := find_candidates w cfg verification
  let w1 := (r1.candidates.map WalletMatch.address).toFinset
  let w2 := (r2.candidates.map WalletMatch.address).toFinset
  let confirmed := (w1 ∩ w2).sort (· ≤ ·)
  { primaryQuery := r1.query, verificationQuery := r2.query,
    confirmedWallets := confirmed,
    primaryCandidates := r1.candidates,
    verificationCandidates := r2.candidates }

/-- Python exception kinds surfaced by the modelled resolver arithmetic. -/
inductive PyErr
  | zeroDivision
  deriving DecidableEq, Repr

/-- Python float division: raises `ZeroDivisionError` on a zero divisor,
otherwise rounds the exact quotient to binary64. -/
def pydiv (a b : ℚ) : Except PyErr ℚ :=
  if b = 0 then .error .zeroDivision else .ok (fdiv64 a b)

/-- The `market_cap or fdv` selection in `disambiguate_by_market_cap`:
a zero (falsy) market cap falls back to the fully-diluted valuation. -/
def mcapOf (t : TokenInfo) : ℚ :=
  if t.marketCap ≠ 0 then t.marketCap else t.fdv

/-- One iteration of the `disambiguate_by_market_cap` loop. The accumulator
is `(best_match, best_diff)` with `none` standing for the initial
`None` / `float("inf")`. Candidates whose market cap and FDV are both
non-positive are skipped; otherwise the relative deviation is computed by a
division by `target_market_cap` that has no zero guard. -/
def disambStep (target : ℚ) (acc : Option TokenInfo × Option ℚ) (token : TokenInfo) :
    Except PyErr (Option TokenInfo × Option ℚ) :=
  let mcap := mcapOf token
  if mcap ≤ 0 then .ok acc
  else
    match pydiv |fsub64 mcap target| target with
    | .error e => .error e
    | .ok diff =>
      if (match acc.2 with
          | none => true
          | some bd => decide (diff < bd)) = true
      then .ok (some token, some diff)
      else .ok acc

/-- The candidate loop of `disambiguate_by_market_cap`, propagating a raised
`ZeroDivisionError` like the Python for-loop would. -/
def disambFold (target : ℚ) :
    List TokenInfo → Option TokenInfo × Option ℚ →
      Except PyErr (Option TokenInfo × Option ℚ)
  | [], acc => .ok acc
  | t :: ts, acc =>
    match disambStep target acc t with
    | .error e => .error e
    | .ok acc2 => disambFold target ts acc2

/-- Model of `TokenResolver.disambiguate_by_market_cap`: empty input yields `None`, a
single candidate is returned unconditionally, otherwise the minimum-deviation
candidate is accepted when its deviation is within the tolerance, with the
highest-liquidity candidate (the first of the pre-sorted list) as fallback. -/
def disambiguate_by_market_cap (candidates : List TokenInfo)
    (targetMarketCap tol : ℚ) : Except PyErr (Option TokenInfo) :=
  if candidates.isEmpty then .ok none
  else if candidates.length = 1 then .ok candidates.head?
  else
    match disambFold targetMarketCap candidates (none, none) with
    | .error e => .error e
    | .ok (some best, some bd) =>
      if bd ≤ tol then .ok (some best) else .ok candidates.head?
    | .ok _ => .ok candidates.head?

/-- Selection logic of `TokenResolver.resolve` after `search_by_ticker` has
produced the liquidity-sorted candidate list: one candidate is returned
directly; with several, a truthy (non-`None`, non-zero) market-cap hint
triggers disambiguation, and otherwise the highest-liquidity candidate (the
first) is chosen. Supply enrichment is side-effect-free here and omitted. -/
def resolveFromCandidates (candidates : List TokenInfo) (marketCapHint : Option ℚ) :
    Except PyErr (Option TokenInfo) :=
  if candidates.isEmpty then .ok none
  else if candidates.length = 1 then .ok candidates.head?
  else if marketCapHint.getD 0 ≠ 0 then
    disambiguate_by_market_cap candidates (marketCapHint.getD 0) (1 / 2)
  else .ok candidates.head?

/-- Outcome of one HTTP attempt inside `BaseAPIClient._request`, as the
transport model's oracle: a successful response, a 429 rate limit, an
`httpx.TimeoutException`, an `httpx.RequestError`, or a non-429 HTTP error
(which `_handle_response` raises as `APIError` and the retry loop does not
catch). -/
inductive AttemptOutcome
  | success (resp : String)
  | rateLimited
  | timeout
  | connectionError (msg : String)
  | httpError (msg : String)
  deriving DecidableEq, Repr

/-- Errors raised by `_request`: `RateLimitError` or `APIError` (message). -/
inductive ReqError
  | rateLimitExceeded (msg : String)
  | apiError (msg : String)
  deriving DecidableEq, Repr

/-- Retryable attempt outcomes: exactly those caught by the retry loop. -/
def retryable : AttemptOutcome → Bool
  | .rateLimited => true
  | .timeout => true
  | .connectionError _ => true
  | _ => false

/-- Retry loop of `BaseAPIClient._request`. `rem` counts the attempts still
allowed, `attempt` is the 0-based attempt index, `last` the last exception
recorded so far. The returned list collects the `time.sleep` durations: a
rate limit sleeps `retry_delay * 2 ** attempt` (exponential backoff), while a
timeout or connection error sleeps the constant `retry_delay`. A non-429
HTTP error is raised immediately without sleeping. When attempts are
exhausted the recorded last exception is raised, or a generic `APIError` if
none was recorded. -/
def requestGo (delay : ℚ) (outcomes : ℕ → AttemptOutcome) :
    ℕ → ℕ → Option ReqError → Except ReqError String × List ℚ
  | 0, _, last =>
    ((match last with
      | some e => .error e
      | none => .error (.apiError "Request failed after retries")), [])
  | rem + 1, attempt, _ =>
    match outcomes attempt with
    | .success r => (.ok r, [])
    | .httpError m => (.error (.apiError m), [])
    | .rateLimited =>
      let r := requestGo delay outcomes rem (attempt + 1)
        (some (.rateLimitExceeded "Rate limit exceeded after retries"))
      (r.1, delay * 2 ^ attempt :: r.2)
    | .timeout =>
      let r := requestGo delay outcomes rem (attempt + 1)
        (some (.apiError "Request timed out"))
      (r.1, delay :: r.2)
    | .connectionError m =>
      let r := requestGo delay outcomes rem (attempt + 1)
        (some (.apiError ("Request failed: " ++ m)))
      (r.1, delay :: r.2)

/-- Model of `BaseAPIClient._request` over an oracle of per-attempt outcomes:
`maxRetries` attempts (default 3 in the source), starting with no recorded
exception. -/
def base_request (delay : ℚ) (maxRetries : ℕ) (outcomes : ℕ → AttemptOutcome) :
    Except ReqError String × List ℚ :=
  requestGo delay outcomes maxRetries 0 none

/-- Page oracle for the pagination scenario: pages 1 and 2 serve 1000
records, page 3 serves 400; pages past 3 would serve 1000 records again, so
that stopping after page 3 is observable. -/
def scenarioPages (n : ℕ) : List RawAccount :=
  if n = 3 then List.replicate 400 ⟨"holder", 1⟩ else List.replicate 1000 ⟨"holder", 1⟩

/-- Token returned by the resolver oracle in the concrete worlds below. -/
def tok6 : TokenInfo := { mintAddress := "M", symbol := "TKN", name := "Token" }

/-- World whose mint has a full first holder page and a one-record second
page, so holder pagination issues two page requests. -/
def w6 : World where
  resolveTicker := fun _ => some tok6
  getByMint := fun _ => some tok6
  decimalsOf := fun _ => some 0
  pages := fun _ p =>
    if p = 1 then List.replicate 1000 ⟨"A", 1⟩
    else if p = 2 then [⟨"B", 2⟩] else []

/-- Token returned by the resolver oracle of the witness world. -/
def tokW : TokenInfo := { mintAddress := "MINT", symbol := "TKN", name := "Token" }

/-- Witness world: one holder page with owner A holding 2.0 units (raw
2,000,000,000 at 9 decimals) and owner B holding 0.5 units. -/
def w1 : World where
  resolveTicker := fun _ => some tokW
  getByMint := fun _ => some tokW
  decimalsOf := fun _ => some 9
  pages := fun _ p => if p = 1 then [⟨"A", 2000000000⟩, ⟨"B", 500000000⟩] else []

/-- Witness configuration: default tolerance 0.1%, default page bound. -/
def cfgW : Config := { heliusApiKey := "", tolerances := {} }

/-- Witness query: target 2.0 units of ticker TKN. -/
def qW : HoldingQuery := { ticker := "TKN", tokenAmount := 2 }

/-- World whose resolver finds nothing. -/
def w9 : World where
  resolveTicker := fun _ => none
  getByMint := fun _ => none
  decimalsOf := fun _ => none
  pages := fun _ _ => []

/-- Disambiguation witness token with the near-target market cap. -/
def tokX : TokenInfo :=
  { mintAddress := "X", symbol := "BONK", name := "BonkX",
    marketCap := 950000, liquidityUsd := 500000 }

/-- Disambiguation witness token with the far-off market cap. -/
def tokY : TokenInfo :=
  { mintAddress := "Y", symbol := "BONK", name := "BonkY",
    marketCap := 50000000, liquidityUsd := 10000 }

theorem getAllHoldersGo_mem (pageFn : ℕ → List RawAccount) :
    ∀ (fuel page n : ℕ),
      n ∈ (getAllHoldersGo pageFn fuel page).2 ↔
        page ≤ n ∧ n < page + fuel ∧ ∀ m, page ≤ m → m < n → 1000 ≤ (pageFn m).length := by
  intro fuel
  induction fuel with
  | zero =>
    intro page n
    simp only [getAllHoldersGo, List.not_mem_nil, false_iff, not_and]
    intro h1 h2
    omega
  | succ fuel ih =>
    intro page n
    simp only [getAllHoldersGo]
    by_cases h1 : (pageFn page).length = 0
    · rw [if_pos h1]
      have hlen : (pageFn page).length = 0 := h1
      constructor
      · intro hn
        have hn' : n = page := by simpa using hn
        subst hn'
        exact ⟨le_refl _, by omega, fun m hm1 hm2 => by omega⟩
      · rintro ⟨h2, h3, h4⟩
        have hn' : n = page := by
          by_contra hne
          have := h4 page (le_refl _) (by omega)
          omega
        simp [hn']
    · rw [if_neg h1]
      by_cases h2 : (pageFn page).length < 1000
      · rw [if_pos h2]
        constructor
        · intro hn
          have hn' : n = page := by simpa using hn
          subst hn'
          exact ⟨le_refl _, by omega, fun m hm1 hm2 => by omega⟩
        · rintro ⟨h3, h4, h5⟩
          have hn' : n = page := by
            by_contra hne
            have := h5 page (le_refl _) (by omega)
            omega
          simp [hn']
      · rw [if_neg h2]
        simp only [List.mem_cons, ih (page + 1) n]
        constructor
        · rintro (rfl | ⟨ha, hb, hc⟩)
          · exact ⟨le_refl _, by omega, fun m hm1 hm2 => by omega⟩
          · refine ⟨by omega, by omega, fun m hm1 hm2 => ?_⟩
            rcases Nat.eq_or_lt_of_le hm1 with rfl | h
            · omega
            · exact hc m (by omega) hm2
        · rintro ⟨ha, hb, hc⟩
          rcases Nat.eq_or_lt_of_le ha with rfl | h
          · exact Or.inl rfl
          · exact Or.inr ⟨by omega, by omega, fun m hm1 hm2 => hc m (by omega) hm2⟩

theorem getAllHoldersGo_fst (pageFn : ℕ → List RawAccount) :
    ∀ (fuel page : ℕ),
      (getAllHoldersGo pageFn fuel page).1 =
        ((getAllHoldersGo pageFn fuel page).2).flatMap pageFn := by
  intro fuel
  induction fuel with
  | zero => intro page; simp [getAllHoldersGo]
  | succ fuel ih =>
    intro page
    simp only [getAllHoldersGo]
    by_cases h1 : (pageFn page).length = 0
    · rw [if_pos h1]
      have : pageFn page = [] := List.length_eq_zero.mp h1
      simp [this]
    · rw [if_neg h1]
      by_cases h2 : (pageFn page).length < 1000
      · rw [if_pos h2]; simp
      · rw [if_neg h2]; simp [ih]

theorem getAllHoldersGo_succ_short (pageFn : ℕ → List RawAccount) (fuel page : ℕ)
    (h0 : (pageFn page).length ≠ 0) (h : (pageFn page).length < 1000) :
    getAllHoldersGo pageFn (fuel + 1) page = (pageFn page, [page]) := by
  simp only [getAllHoldersGo, if_neg h0, if_pos h]

theorem getAllHoldersGo_succ_full (pageFn : ℕ → List RawAccount) (fuel page : ℕ)
    (h : ¬(pageFn page).length < 1000) :
    getAllHoldersGo pageFn (fuel + 1) page =
      (pageFn page ++ (getAllHoldersGo pageFn fuel (page + 1)).1,
        page :: (getAllHoldersGo pageFn fuel (page + 1)).2) := by
  have h0 : ¬(pageFn page).length = 0 := by omega
  simp only [getAllHoldersGo, if_neg h0, if_neg h]

/-- C7: `get_all_holders` requests pages starting at 1; page `n` is requested
exactly when `1 ≤ n ≤ maxPages` and every earlier page returned a full 1000
records; the returned records are the requested pages' records concatenated
in page order; and in the 1000/1000/400 scenario all 2400 records are
accumulated with pages 1–3 requested and no fourth request issued. -/
theorem get_all_holders_pagination :
    (∀ (pageFn : ℕ → List RawAccount) (maxPages n : ℕ),
        n ∈ (getAllHoldersT pageFn maxPages).2 ↔
          1 ≤ n ∧ n ≤ maxPages ∧ ∀ m, 1 ≤ m → m < n → 1000 ≤ (pageFn m).length)
    ∧ (∀ (pageFn : ℕ → List RawAccount) (maxPages : ℕ),
        get_all_holders pageFn maxPages =
          ((getAllHoldersT pageFn maxPages).2).flatMap pageFn)
    ∧ (get_all_holders scenarioPages 50).length = 2400
    ∧ (getAllHoldersT scenarioPages 50).2 = [1, 2, 3] := by
  have e1 : scenarioPages 1 = List.replicate 1000 ⟨"holder", 1⟩ := rfl
  have e2 : scenarioPages 2 = List.replicate 1000 ⟨"holder", 1⟩ := rfl
  have e3 : scenarioPages 3 = List.replicate 400 ⟨"holder", 1⟩ := rfl
  have l1 : (scenarioPages 1).length = 1000 := by rw [e1, List.length_replicate]
  have l2 : (scenarioPages 2).length = 1000 := by rw [e2, List.length_replicate]
  have l3 : (scenarioPages 3).length = 400 := by rw [e3, List.length_replicate]
  have hs : getAllHoldersT scenarioPages 50 =
      (scenarioPages 1 ++ (scenarioPages 2 ++ scenarioPages 3), [1, 2, 3]) := by
    rw [getAllHoldersT]
    rw [show (50 : ℕ) = 49 + 1 from rfl,
      getAllHoldersGo_succ_full scenarioPages 49 1 (by rw [l1]; decide)]
    rw [show (49 : ℕ) = 48 + 1 from rfl,
      getAllHoldersGo_succ_full scenarioPages 48 2 (by rw [l2]; decide)]
    rw [show (48 : ℕ) = 47 + 1 from rfl,
      getAllHoldersGo_succ_short scenarioPages 47 3 (by rw [l3]; decide)
        (by rw [l3]; decide)]
  refine ⟨fun pageFn maxPages n => ?_, fun pageFn maxPages => ?_, ?_, ?_⟩
  · rw [getAllHoldersT, getAllHoldersGo_mem]
    constructor
    · rintro ⟨a, b, c⟩; exact ⟨a, by omega, c⟩
    · rintro ⟨a, b, c⟩; exact ⟨a, by omega, c⟩
  · exact getAllHoldersGo_fst pageFn maxPages 1
  · simp only [get_all_holders, hs]
    rw [List.length_append, List.length_append, l1, l2, l3]
  · rw [hs]

/-- C7 witness: the characterization instantiated at the scenario oracle,
page 2. -/
theorem get_all_holders_pagination_witness :
    2 ∈ (getAllHoldersT scenarioPages 50).2 ↔
      1 ≤ 2 ∧ 2 ≤ 50 ∧ ∀ m, 1 ≤ m → m < 2 → 1000 ≤ (scenarioPages m).length :=
  get_all_holders_pagination.1 scenarioPages 50 2

/-- C6: contrary to the claim, the holder retrieval of `find_candidates` is
not bounded by `Config.max_holder_pages`: the source calls
`get_all_holders(mint)` without passing the configured value, so the
parameter default 50 applies. With `max_holder_pages = 1` two pages are
still fetched, and `find_candidates` is altogether insensitive to the
configured page bound. -/
theorem find_candidates_ignores_max_holder_pages :
    (Config.mk "" ⟨1 / 1000⟩ 1).maxHolderPages < (fetchHoldersPages w6 "M").length
    ∧ (∀ (c₁ c₂ : Config) (w : World) (q : HoldingQuery),
        c₁.tolerances = c₂.tolerances →
          find_candidates w c₁ q = find_candidates w c₂ q) := by
  constructor
  · have p1 : (w6.pages "M" 1).length = 1000 := by
      rw [show w6.pages "M" 1 = List.replicate 1000 ⟨"A", 1⟩ from rfl, List.length_replicate]
    have p2 : (w6.pages "M" 2).length = 1 := by
      rw [show w6.pages "M" 2 = [⟨"B", 2⟩] from rfl]
      rfl
    have hp : getAllHoldersT (w6.pages "M") 50 = (w6.pages "M" 1 ++ w6.pages "M" 2, [1, 2]) := by
      rw [getAllHoldersT]
      rw [show (50 : ℕ) = 49 + 1 from rfl,
        getAllHoldersGo_succ_full _ 49 1 (by rw [p1]; decide)]
      rw [show (49 : ℕ) = 48 + 1 from rfl,
        getAllHoldersGo_succ_short _ 48 2 (by rw [p2]; decide) (by rw [p2]; decide)]
    simp only [fetchHoldersPages, hp]
    decide
  · intro c₁ c₂ w q h
    unfold find_candidates
    cases hres : resolveToken w q with
    | none => rfl
    | some token => simp only [h]

/-- C6 witness: halving versus default page bound makes no difference to the
search outcome on the concrete world. -/
theorem find_candidates_ignores_max_holder_pages_witness :
    find_candidates w6 (Config.mk "" ⟨1 / 1000⟩ 1) (HoldingQuery.mk "TKN" 2 none 9) =
      find_candidates w6 (Config.mk "" ⟨1 / 1000⟩ 50) (HoldingQuery.mk "TKN" 2 none 9) :=
  find_candidates_ignores_max_holder_pages.2 _ _ _ _ rfl

/-- C1: for a positive target and a successful resolution, `find_candidates`
lists an owner among the candidates exactly when that owner was scanned and
its aggregated balance `held` passes `abs(held - target) / target <= tolerance`,
the check evaluated — as in the source — in binary64 arithmetic; in
particular no owner outside the band ever appears. -/
theorem find_candidates_band_iff (w : World) (cfg : Config) (q : HoldingQuery)
    (token : TokenInfo) (hres : resolveToken w q = some token)
    (hpos : 0 < q.tokenAmount) (owner : String) :
    (∃ m ∈ (find_candidates w cfg q).candidates, m.address = owner) ↔
      owner ∈ (holderAgg w token.mintAddress).1 ∧
        fdiv64 |fsub64 ((holderAgg w token.mintAddress).2 owner) q.tokenAmount|
            q.tokenAmount ≤ cfg.tolerances.tokenAmount := by
  unfold find_candidates
  rw [hres]
  simp only [List.mem_map, List.mem_filter, matchCond, condWithDiv,
    Bool.and_eq_true, decide_eq_true_eq]
  constructor
  · rintro ⟨m, ⟨o, ⟨hmem, _, hdiv⟩, rfl⟩, haddr⟩
    obtain rfl : o = owner := haddr
    exact ⟨hmem, hdiv⟩
  · rintro ⟨hmem, hdiv⟩
    exact ⟨_, ⟨owner, ⟨hmem, hpos, hdiv⟩, rfl⟩, rfl⟩

/-- C1 witness: the filter characterization instantiated on the concrete
world at owner A, with both hypotheses discharged. -/
theorem find_candidates_band_iff_witness :
    resolveToken w1 qW = some tokW ∧ 0 < qW.tokenAmount ∧
      ((∃ m ∈ (find_candidates w1 cfgW qW).candidates, m.address = "A") ↔
        "A" ∈ (holderAgg w1 tokW.mintAddress).1 ∧
          fdiv64 |fsub64 ((holderAgg w1 tokW.mintAddress).2 "A") qW.tokenAmount|
              qW.tokenAmount ≤ cfgW.tolerances.tokenAmount) :=
  ⟨rfl, by decide, find_candidates_band_iff w1 cfgW qW tokW rfl (by decide) "A"⟩

/-- C2: a non-positive target yields zero candidates whatever the holder
data, and the tolerance condition is false independently of the value of the
division `abs(held - target) / target`, which the short-circuiting `and`
therefore never needs to evaluate. -/
theorem find_candidates_nonpositive_target (w : World) (cfg : Config)
    (q : HoldingQuery) (hle : q.tokenAmount ≤ 0) :
    (find_candidates w cfg q).candidates = [] ∧
      ∀ divVal : ℚ, condWithDiv q.tokenAmount cfg.tolerances.tokenAmount divVal = false := by
  have hnpos : ¬(0 < q.tokenAmount) := not_lt.mpr hle
  have hcond : ∀ tol divVal : ℚ, condWithDiv q.tokenAmount tol divVal = false := by
    intro tol divVal
    simp [condWithDiv, hnpos]
  refine ⟨?_, hcond _⟩
  unfold find_candidates
  cases hres : resolveToken w q with
  | none => rfl
  | some token =>
    simp only [List.map_eq_nil_iff, List.filter_eq_nil_iff]
    intro o ho
    simp [matchCond, hcond]

/-- C2 witness: target 0 on the populated witness world returns no
candidates. -/
theorem find_candidates_nonpositive_target_witness :
    (HoldingQuery.mk "TKN" 0 none 9).tokenAmount ≤ 0 ∧
      (find_candidates w1 cfgW (HoldingQuery.mk "TKN" 0 none 9)).candidates = [] :=
  ⟨by decide, (find_candidates_nonpositive_target w1 cfgW _ (by decide)).1⟩

/-- C3 counterexample: an owner holding raw amounts 1 and 2 of a 1-decimal
mint aggregates, in the source's binary64 float accumulation, to the binary64
value 0.30000000000000004... — not exactly (1+2)/10¹ = 3/10. -/
theorem aggregate_float_not_exact :
    (aggregate [⟨"A", 1⟩, ⟨"A", 2⟩] 1).2 "A" ≠ (1 + 2 : ℚ) / 10 ^ 1 := by decide

/-- C3 amended: aggregation is owner-additive in the program's binary64
arithmetic — the owner's total is the binary64 accumulation, from 0.0, of
the binary64 quotients raw/10^d; the exact rational identity
a/10^d + b/10^d = (a+b)/10^d holds, but the accumulated float need not equal
it (see the counterexample). -/
theorem aggregate_owner_additive_binary64 (o : String) (a b : ℤ) (d : ℕ)
    (ho : o ≠ "") :
    (aggregate [⟨o, a⟩, ⟨o, b⟩] d).2 o =
      fadd64 (fadd64 0 (fdiv64 (a : ℚ) ((10 : ℚ) ^ d))) (fdiv64 (b : ℚ) ((10 : ℚ) ^ d))
    ∧ (a : ℚ) / 10 ^ d + (b : ℚ) / 10 ^ d = ((a + b : ℤ) : ℚ) / 10 ^ d := by
  constructor
  · simp [aggregate, aggStep, ho]
  · push_cast
    ring

/-- C3 witness: the amended additivity evaluated at owner A, raw amounts 1
and 2, one decimal. -/
theorem aggregate_owner_additive_binary64_witness :
    "A" ≠ "" ∧
      (aggregate [⟨"A", 1⟩, ⟨"A", 2⟩] 1).2 "A" =
        fadd64 (fadd64 0 (fdiv64 ((1 : ℤ) : ℚ) ((10 : ℚ) ^ 1)))
          (fdiv64 ((2 : ℤ) : ℚ) ((10 : ℚ) ^ 1)) :=
  ⟨by decide, (aggregate_owner_additive_binary64 "A" 1 2 1 (by decide)).1⟩

/-- C9: a failed resolution makes `find_candidates` return (not raise) the
defined "not found" result — null token identity and empty candidates — and
every result satisfies the invariant that a null token identity implies an
empty candidate list. -/
theorem find_candidates_not_found (w : World) (cfg : Config) (q : HoldingQuery) :
    (resolveToken w q = none →
      find_candidates w cfg q = { query := q, tokenInfo := none, candidates := [] })
    ∧ ((find_candidates w cfg q).tokenInfo = none →
        (find_candidates w cfg q).candidates = []) := by
  cases hres : resolveToken w q with
  | none =>
    refine ⟨fun _ => ?_, fun _ => ?_⟩
    · unfold find_candidates
      rw [hres]
    · unfold find_candidates
      rw [hres]
  | some token =>
    refine ⟨fun h => ?_, fun h => ?_⟩
    · simp at h
    · exfalso
      unfold find_candidates at h
      rw [hres] at h
      simp at h

/-- C9 witness: an unresolvable ticker produces the "not found" result. -/
theorem find_candidates_not_found_witness :
    find_candidates w9 cfgW (HoldingQuery.mk "NOPE" 5 none 9) =
      { query := HoldingQuery.mk "NOPE" 5 none 9, tokenInfo := none, candidates := [] } :=
  (find_candidates_not_found w9 cfgW (HoldingQuery.mk "NOPE" 5 none 9)).1 rfl

/-- C4: the confirmed wallets of a verification are exactly the addresses
appearing in both candidate lists, listed in strictly increasing
lexicographic order; both full candidate lists are returned unchanged; and
`verified` holds exactly when there is exactly one confirmed wallet. -/
theorem verify_intersection_sorted_verified (w : World) (cfg : Config)
    (p v : HoldingQuery) :
    (∀ a, a ∈ (verify_with_second_holding w cfg p v).confirmedWallets ↔
        ((∃ m ∈ (find_candidates w cfg p).candidates, m.address = a) ∧
          (∃ m ∈ (find_candidates w cfg v).candidates, m.address = a)))
    ∧ (verify_with_second_holding w cfg p v).confirmedWallets.Sorted (· < ·)
    ∧ (verify_with_second_holding w cfg p v).primaryCandidates =
        (find_candidates w cfg p).candidates
    ∧ (verify_with_second_holding w cfg p v).verificationCandidates =
        (find_candidates w cfg v).candidates
    ∧ ((verify_with_second_holding w cfg p v).verified = true ↔
        (verify_with_second_holding w cfg p v).confirmedWallets.length = 1) := by
  refine ⟨fun a => ?_, ?_, rfl, rfl, ?_⟩
  · unfold verify_with_second_holding
    simp only [Finset.mem_sort, Finset.mem_inter, List.mem_toFinset, List.mem_map]
  · unfold verify_with_second_holding
    dsimp only
    exact Finset.sort_sorted_lt _
  · unfold VerificationResult.verified
    simp [beq_iff_eq]

/-- C5: swapping the primary and verification queries leaves the confirmed
wallets unchanged (even as lists, both being sorted) and merely swaps the
labelling of the two candidate lists. -/
theorem verify_commutative_membership (w : World) (cfg : Config)
    (p v : HoldingQuery) :
    (verify_with_second_holding w cfg p v).confirmedWallets =
      (verify_with_second_holding w cfg v p).confirmedWallets
    ∧ (verify_with_second_holding w cfg p v).primaryCandidates =
        (verify_with_second_holding w cfg v p).verificationCandidates
    ∧ (verify_with_second_holding w cfg p v).verificationCandidates =
        (verify_with_second_holding w cfg v p).primaryCandidates := by
  unfold verify_with_second_holding
  refine ⟨?_, rfl, rfl⟩
  dsimp only
  rw [Finset.inter_comm]

theorem requestGo_const_rateLimited (delay : ℚ) (outcomes : ℕ → AttemptOutcome)
    (hout : ∀ i, outcomes i = .rateLimited) :
    ∀ (rem attempt : ℕ) (last : Option ReqError),
      (requestGo delay outcomes rem attempt last).2 =
        (List.range rem).map (fun i => delay * 2 ^ (attempt + i)) ∧
      (1 ≤ rem → (requestGo delay outcomes rem attempt last).1 =
        .error (.rateLimitExceeded "Rate limit exceeded after retries")) := by
  intro rem
  induction rem with
  | zero =>
    intro attempt last
    exact ⟨by simp [requestGo], fun hh => absurd hh (by decide)⟩
  | succ rem ih =>
    intro attempt last
    constructor
    · simp only [requestGo, hout attempt]
      rw [(ih (attempt + 1)
        (some (.rateLimitExceeded "Rate limit exceeded after retries"))).1]
      rw [List.range_succ_eq_map, List.map_cons, List.map_map]
      have htail : (List.range rem).map (fun i => delay * 2 ^ (attempt + 1 + i)) =
          (List.range rem).map ((fun i => delay * 2 ^ (attempt + i)) ∘ Nat.succ) := by
        apply List.map_congr_left
        intro i _
        simp only [Function.comp_apply]
        rw [show attempt + 1 + i = attempt + (i + 1) from by omega]
      rw [htail, Nat.add_zero]
    · intro _
      simp only [requestGo, hout attempt]
      cases rem with
      | zero => rfl
      | succ rem2 =>
        exact (ih (attempt + 1)
          (some (.rateLimitExceeded "Rate limit exceeded after retries"))).2 (by omega)

theorem requestGo_const_timeout (delay : ℚ) (outcomes : ℕ → AttemptOutcome)
    (hout : ∀ i, outcomes i = .timeout) :
    ∀ (rem attempt : ℕ) (last : Option ReqError),
      (requestGo delay outcomes rem attempt last).2 = List.replicate rem delay ∧
      (1 ≤ rem → (requestGo delay outcomes rem attempt last).1 =
        .error (.apiError "Request timed out")) := by
  intro rem
  induction rem with
  | zero =>
    intro attempt last
    exact ⟨by simp [requestGo], fun hh => absurd hh (by decide)⟩
  | succ rem ih =>
    intro attempt last
    constructor
    · simp only [requestGo, hout attempt]
      rw [(ih (attempt + 1) (some (.apiError "Request timed out"))).1,
        List.replicate_succ]
    · intro _
      simp only [requestGo, hout attempt]
      cases rem with
      | zero => rfl
      | succ rem2 =>
        exact (ih (attempt + 1) (some (.apiError "Request timed out"))).2 (by omega)

theorem requestGo_const_connErr (delay : ℚ) (outcomes : ℕ → AttemptOutcome)
    (msg : String) (hout : ∀ i, outcomes i = .connectionError msg) :
    ∀ (rem attempt : ℕ) (last : Option ReqError),
      (requestGo delay outcomes rem attempt last).2 = List.replicate rem delay ∧
      (1 ≤ rem → (requestGo delay outcomes rem attempt last).1 =
        .error (.apiError ("Request failed: " ++ msg))) := by
  intro rem
  induction rem with
  | zero =>
    intro attempt last
    exact ⟨by simp [requestGo], fun hh => absurd hh (by decide)⟩
  | succ rem ih =>
    intro attempt last
    constructor
    · simp only [requestGo, hout attempt]
      rw [(ih (attempt + 1) (some (.apiError ("Request failed: " ++ msg)))).1,
        List.replicate_succ]
    · intro _
      simp only [requestGo, hout attempt]
      cases rem with
      | zero => rfl
      | succ rem2 =>
        exact (ih (attempt + 1)
          (some (.apiError ("Request failed: " ++ msg)))).2 (by omega)

theorem requestGo_success (delay : ℚ) (outcomes : ℕ → AttemptOutcome) (r : String) :
    ∀ (k rem attempt : ℕ) (last : Option ReqError),
      k < rem → outcomes (attempt + k) = .success r →
      (∀ j, j < k → retryable (outcomes (attempt + j)) = true) →
      (requestGo delay outcomes rem attempt last).1 = .ok r := by
  intro k
  induction k with
  | zero =>
    intro rem attempt last hk hsucc _
    cases rem with
    | zero => omega
    | succ rem =>
      rw [Nat.add_zero] at hsucc
      simp only [requestGo, hsucc]
  | succ k ih =>
    intro rem attempt last hk hsucc hretry
    cases rem with
    | zero => omega
    | succ rem =>
      have h0 := hretry 0 (by omega)
      rw [Nat.add_zero] at h0
      have hnext1 : outcomes (attempt + 1 + k) = .success r := by
        rw [show attempt + 1 + k = attempt + (k + 1) by omega]
        exact hsucc
      have hnext2 : ∀ j, j < k → retryable (outcomes (attempt + 1 + j)) = true := by
        intro j hj
        rw [show attempt + 1 + j = attempt + (j + 1) by omega]
        exact hretry (j + 1) (by omega)
      cases hout : outcomes attempt with
      | success s =>
        rw [hout] at h0
        simp [retryable] at h0
      | httpError m =>
        rw [hout] at h0
        simp [retryable] at h0
      | rateLimited =>
        simp only [requestGo, hout]
        exact ih rem (attempt + 1) _ (by omega) hnext1 hnext2
      | timeout =>
        simp only [requestGo, hout]
        exact ih rem (attempt + 1) _ (by omega) hnext1 hnext2
      | connectionError m =>
        simp only [requestGo, hout]
        exact ih rem (attempt + 1) _ (by omega) hnext1 hnext2

/-- C8 counterexample: three straight timeouts with base delay 1 sleep
1, 1, 1 — not the exponential 1, 2, 4 schedule the claim asserts for
network/timeout errors. -/
theorem backoff_not_exponential_for_timeouts :
    (base_request 1 3 (fun _ => .timeout)).2 = [1, 1, 1] ∧
      (base_request 1 3 (fun _ => .timeout)).2 ≠
        ((List.range 3).map fun i => (1 : ℚ) * 2 ^ i) := by
  constructor
  · decide
  · decide

/-- C8 amended: rate-limit responses are retried with exponential backoff
(`retry_delay * 2 ** attempt`) and raise `RateLimitError` after the retry
ceiling; network/timeout errors are retried with the constant base delay and
raise the last `APIError` after the ceiling; a success within the ceiling is
returned; there is no silent partial result. -/
theorem base_request_retry_policy :
    (∀ (delay : ℚ) (n : ℕ),
        (base_request delay n (fun _ => .rateLimited)).2 =
          (List.range n).map (fun i => delay * 2 ^ i))
    ∧ (∀ (delay : ℚ) (n : ℕ), 1 ≤ n →
        (base_request delay n (fun _ => .rateLimited)).1 =
          .error (.rateLimitExceeded "Rate limit exceeded after retries"))
    ∧ (∀ (delay : ℚ) (n : ℕ),
        (base_request delay n (fun _ => .timeout)).2 = List.replicate n delay)
    ∧ (∀ (delay : ℚ) (n : ℕ), 1 ≤ n →
        (base_request delay n (fun _ => .timeout)).1 =
          .error (.apiError "Request timed out"))
    ∧ (∀ (delay : ℚ) (n : ℕ) (m : String),
        (base_request delay n (fun _ => .connectionError m)).2 =
          List.replicate n delay)
    ∧ (∀ (delay : ℚ) (n : ℕ) (m : String), 1 ≤ n →
        (base_request delay n (fun _ => .connectionError m)).1 =
          .error (.apiError ("Request failed: " ++ m)))
    ∧ (∀ (delay : ℚ) (n : ℕ) (outcomes : ℕ → AttemptOutcome) (k : ℕ) (r : String),
        k < n → outcomes k = .success r →
        (∀ j, j < k → retryable (outcomes j) = true) →
        (base_request delay n outcomes).1 = .ok r) := by
  refine ⟨fun delay n => ?_, fun delay n h => ?_, fun delay n => ?_,
    fun delay n h => ?_, fun delay n m => ?_, fun delay n m h => ?_,
    fun delay n outcomes k r hk hs hr => ?_⟩
  · have := (requestGo_const_rateLimited delay _ (fun _ => rfl) n 0 none).1
    simpa using this
  · exact (requestGo_const_rateLimited delay _ (fun _ => rfl) n 0 none).2 h
  · exact (requestGo_const_timeout delay _ (fun _ => rfl) n 0 none).1
  · exact (requestGo_const_timeout delay _ (fun _ => rfl) n 0 none).2 h
  · exact (requestGo_const_connErr delay _ m (fun _ => rfl) n 0 none).1
  · exact (requestGo_const_connErr delay _ m (fun _ => rfl) n 0 none).2 h
  · exact requestGo_success delay outcomes r k n 0 none hk (by simpa using hs)
      (fun j hj => by simpa using hr j hj)

/-- C8 witness: the amended retry policy evaluated at two attempts with base
delay 1, for each outcome family. -/
theorem base_request_retry_policy_witness :
    (base_request (1 : ℚ) 2 (fun _ => .rateLimited)).1 =
      .error (.rateLimitExceeded "Rate limit exceeded after retries")
    ∧ (base_request (1 : ℚ) 2 (fun _ => .timeout)).1 =
        .error (.apiError "Request timed out")
    ∧ (base_request (1 : ℚ) 2 (fun _ => .success "ok")).1 = .ok "ok" :=
  ⟨base_request_retry_policy.2.1 1 2 (by omega),
    base_request_retry_policy.2.2.2.1 1 2 (by omega),
    base_request_retry_policy.2.2.2.2.2.2 1 2 _ 0 "ok" (by omega) rfl
      (fun j hj => absurd hj (by omega))⟩

theorem disambStep_ok (target : ℚ) (acc : Option TokenInfo × Option ℚ)
    (t : TokenInfo) (h : target ≠ 0) :
    ∃ a2, disambStep target acc t = .ok a2 := by
  unfold disambStep pydiv
  dsimp only
  rw [if_neg h]
  by_cases hm : mcapOf t ≤ 0
  · rw [if_pos hm]
    exact ⟨acc, rfl⟩
  · rw [if_neg hm]
    dsimp only
    rcases acc with ⟨mb, md⟩
    cases md with
    | none =>
      dsimp only
      rw [if_pos rfl]
      exact ⟨_, rfl⟩
    | some bd =>
      dsimp only
      by_cases hlt : fdiv64 |fsub64 (mcapOf t) target| target < bd
      · rw [if_pos (decide_eq_true hlt)]
        exact ⟨_, rfl⟩
      · rw [if_neg (by simpa using hlt)]
        exact ⟨_, rfl⟩

theorem disambFold_ok (target : ℚ) (h : target ≠ 0) :
    ∀ (cands : List TokenInfo) (acc : Option TokenInfo × Option ℚ),
      ∃ r, disambFold target cands acc = .ok r := by
  intro cands
  induction cands with
  | nil => intro acc; exact ⟨acc, rfl⟩
  | cons t ts ih =>
    intro acc
    obtain ⟨a2, ha2⟩ := disambStep_ok target acc t h
    unfold disambFold
    rw [ha2]
    exact ih a2

theorem disambFold_zero_err :
    ∀ (cands : List TokenInfo) (acc : Option TokenInfo × Option ℚ),
      (∃ t ∈ cands, 0 < mcapOf t) →
      disambFold 0 cands acc = .error .zeroDivision := by
  intro cands
  induction cands with
  | nil =>
    rintro acc ⟨t, ht, -⟩
    simp at ht
  | cons t ts ih =>
    rintro acc ⟨u, hu, hpos⟩
    unfold disambFold
    rcases List.mem_cons.mp hu with rfl | hmem
    · have hstep : disambStep 0 acc u = .error .zeroDivision := by
        unfold disambStep
        rw [if_neg (not_le.mpr hpos)]
        unfold pydiv
        rw [if_pos rfl]
      rw [hstep]
    · by_cases hm : mcapOf t ≤ 0
      · have hstep : disambStep 0 acc t = .ok acc := by
          unfold disambStep
          rw [if_pos hm]
        rw [hstep]
        exact ih acc ⟨u, hmem, hpos⟩
      · have hstep : disambStep 0 acc t = .error .zeroDivision := by
          unfold disambStep
          rw [if_neg hm]
          unfold pydiv
          rw [if_pos rfl]
        rw [hstep]

/-- C10: `disambiguate_by_market_cap` is total (never raises) whenever the
target market cap is non-zero; with two or more candidates of which at least
one has a positive market cap or FDV, a zero target reaches the unguarded
division and raises `ZeroDivisionError`; and `resolve` with a falsy
market-cap hint (absent or zero) bypasses disambiguation entirely, returning
the highest-liquidity (first) candidate. -/
theorem disambiguate_division_guard :
    (∀ (cands : List TokenInfo) (target tol : ℚ), target ≠ 0 →
        ∃ r, disambiguate_by_market_cap cands target tol = .ok r)
    ∧ (∀ (cands : List TokenInfo) (tol : ℚ), 2 ≤ cands.length →
        (∃ t ∈ cands, 0 < mcapOf t) →
        disambiguate_by_market_cap cands 0 tol = .error .zeroDivision)
    ∧ (∀ (cands : List TokenInfo) (hint : Option ℚ), hint.getD 0 = 0 →
        resolveFromCandidates cands hint = .ok cands.head?) := by
  refine ⟨?_, ?_, ?_⟩
  · intro cands target tol h
    unfold disambiguate_by_market_cap
    split
    · exact ⟨none, rfl⟩
    · split
      · exact ⟨_, rfl⟩
      · obtain ⟨r, hr⟩ := disambFold_ok target h cands (none, none)
        rw [hr]
        rcases r with ⟨mb, md⟩
        cases mb <;> cases md <;> dsimp only
        · exact ⟨_, rfl⟩
        · exact ⟨_, rfl⟩
        · exact ⟨_, rfl⟩
        · split
          · exact ⟨_, rfl⟩
          · exact ⟨_, rfl⟩
  · intro cands tol hlen hex
    unfold disambiguate_by_market_cap
    rw [if_neg (by
      intro hemp
      rw [List.isEmpty_iff] at hemp
      subst hemp
      simp at hlen)]
    rw [if_neg (by omega)]
    rw [disambFold_zero_err cands (none, none) hex]
  · intro cands hint hfalsy
    unfold resolveFromCandidates
    split
    · rename_i hemp
      rw [List.isEmpty_iff] at hemp
      subst hemp
      rfl
    · split
      · rfl
      · rw [if_neg (not_not_intro hfalsy)]

/-- C10 witness: a non-zero target succeeds, a zero target on the same two
candidates raises `ZeroDivisionError`, and a zero market-cap hint bypasses
disambiguation in favour of the first candidate. -/
theorem disambiguate_division_guard_witness :
    (∃ r, disambiguate_by_market_cap [tokX, tokY] 1000000 (1 / 2) = .ok r)
    ∧ disambiguate_by_market_cap [tokX, tokY] 0 (1 / 2) = .error .zeroDivision
    ∧ resolveFromCandidates [tokX, tokY] (some 0) = .ok (some tokX) :=
  ⟨disambiguate_division_guard.1 [tokX, tokY] 1000000 (1 / 2) (by norm_num),
    disambiguate_division_guard.2.1 [tokX, tokY] (1 / 2) (by decide)
      ⟨tokX, by decide, by decide⟩,
    disambiguate_division_guard.2.2 [tokX, tokY] (some 0) rfl⟩

end WalletTracker
